import Mathlib

/-!
# Verification of `internal/util/maps.Merge` and of the expectation options

The development embeds

* `Merge` from `internal/util/maps/merge.go` twice: as a pure function on
  association lists (used for the functional claims) and as a heap-passing
  function over a store of map objects (used for the non-mutation claim);
* `GetTestResourceName` from `opts_args.go`;
* `IgnoreDesiredResources` and `ExpectDesiredResourcesYAMLOverride` from
  `opts_expect.go`.

A Go `map[K]V` is represented by an association list `List (K × V)`.  A list
stands for a Go map exactly when its keys are pairwise distinct; the order of
the list is the order in which `range` visits the entries.  Go's key type is
`comparable`, which is rendered as `DecidableEq K`.
-/

namespace Maps

variable {K S V : Type} [DecidableEq K]

/-- The values a `map[K]interface{}` may hold, as far as `Merge` can tell them
apart: `tree` is a value whose dynamic type is `map[K]interface{}` (the type
assertion of `Merge` succeeds on it), `seq` is a slice of values, `scalar` is
any other value. -/
inductive Value (K S : Type) where
  | scalar : S → Value K S
  | seq : List (Value K S) → Value K S
  | tree : List (K × Value K S) → Value K S

/-- The Go expression `v, ok := m[k]`: `none` when `ok` is false. -/
def mapGet : List (K × V) → K → Option V
  | [], _ => none
  | (k', v) :: rest, k => if k' = k then some v else mapGet rest k

/-- The Go statement `m[k] = v`: an existing entry is overwritten, a new key
gets a new entry. -/
def mapSet : List (K × V) → K → V → List (K × V)
  | [], k, v => [(k, v)]
  | (k', v') :: rest, k, v => if k' = k then (k, v) :: rest else (k', v') :: mapSet rest k v

/-- The Go statement `delete(m, k)`. -/
def mapDelete (m : List (K × V)) (k : K) : List (K × V) :=
  m.filter (fun e => decide (e.1 ≠ k))

/-- The keys of a map, in the order `range` visits them. -/
def mapKeys (m : List (K × V)) : List K := m.map Prod.fst

/-- The first loop of `Merge`: `for k, v := range a { out[k] = v }`. -/
def copyLoop (out : List (K × V)) : List (K × V) → List (K × V)
  | [] => out
  | (k, v) :: rest => copyLoop (mapSet out k v) rest

mutual
/-- The function `Merge` of `merge.go`: `out` starts empty, receives the
entries of `a`, then the second loop runs over `b`. -/
def Merge (a b : List (K × Value K S)) : List (K × Value K S) :=
  mergeLoop (copyLoop [] a) b
/-- The second loop of `Merge`, `for k, v := range b`, on the current `out`.
When `v` is a map and `out[k]` exists and is a map, `out[k] = Merge(bv, v)`
and the loop continues; in every other case `out[k] = v`. -/
def mergeLoop (out : List (K × Value K S)) : List (K × Value K S) → List (K × Value K S)
  | [] => out
  | (k, v) :: rest =>
    match v with
    | .tree bm =>
      match mapGet out k with
      | some (.tree am) => mergeLoop (mapSet out k (.tree (Merge am bm))) rest
      | _ => mergeLoop (mapSet out k v) rest
    | _ => mergeLoop (mapSet out k v) rest
end

/-- The value one iteration of the second loop stores at its key, given the
value `old` that `out` holds there. -/
def mergeVal (old : Option (Value K S)) (v : Value K S) : Value K S :=
  match v, old with
  | .tree bm, some (.tree am) => .tree (Merge am bm)
  | _, _ => v

/-- Whether the type assertion `v.(map[K]interface{})` succeeds. -/
def Value.isTree : Value K S → Bool
  | .tree _ => true
  | _ => false

mutual
/-- Well-formedness of a value: every map reachable through maps has pairwise
distinct keys (sequences are never ranged over by `Merge` and carry no
constraint). -/
def Value.wf : Value K S → Bool
  | .scalar _ => true
  | .seq _ => true
  | .tree m => wfMap m
/-- Well-formedness of a map: distinct keys, and well-formed values. -/
def wfMap : List (K × Value K S) → Bool
  | [] => true
  | (k, v) :: rest => decide (k ∉ mapKeys rest) && v.wf && wfMap rest
end

/-- The content of a value with the iteration order forgotten: a map becomes
the function from keys to the contents of its values. -/
inductive Sem (K S : Type) where
  | scalar : S → Sem K S
  | seq : List (Sem K S) → Sem K S
  | tree : (K → Option (Sem K S)) → Sem K S

mutual
/-- The order-free content of a value. -/
def Value.denote : Value K S → Sem K S
  | .scalar s => .scalar s
  | .seq xs => .seq (denoteList xs)
  | .tree m => .tree (fun k => denoteLookup m k)
/-- The order-free contents of the elements of a sequence. -/
def denoteList : List (Value K S) → List (Sem K S)
  | [] => []
  | x :: xs => x.denote :: denoteList xs
/-- The order-free content found at key `k` of a map. -/
def denoteLookup : List (K × Value K S) → K → Option (Sem K S)
  | [], _ => none
  | (k', v) :: rest, k => if k' = k then some v.denote else denoteLookup rest k
end

/-- Two association lists are the same Go map: the same keys, and at every key
values of the same order-free content (so nested maps may be listed in
different orders as well). -/
def SameMap (a b : List (K × Value K S)) : Prop :=
  ∀ k, denoteLookup a k = denoteLookup b k

/-! ## Heap-passing embedding of `Merge`

Go maps are references.  The store is a list of map objects, a reference is an
index into it, `make` appends a fresh empty object. -/

/-- A value held in a map object of the store: `map r` is a value of dynamic
type `map[K]interface{}`, the nil map when `r` is `none`; anything else is a
`scalar`. -/
inductive HVal (K S : Type) where
  | scalar : S → HVal K S
  | map : Option Nat → HVal K S

/-- The store of map objects. -/
abbrev Heap (K S : Type) := List (List (K × HVal K S))

/-- The entries `range m` visits: none for the nil map; `none` when the
reference does not point into the store. -/
def heapRange (h : Heap K S) : Option Nat → Option (List (K × HVal K S))
  | none => some []
  | some r => h[r]?

/-- The Go expression `v, ok := out[k]` on the object at reference `r`. -/
def heapIndex (h : Heap K S) (r : Nat) (k : K) : Option (HVal K S) :=
  match h[r]? with
  | some m => mapGet m k
  | none => none

/-- The Go statement `out[k] = v` on the object at reference `r`. -/
def heapAssign (h : Heap K S) (r : Nat) (k : K) (v : HVal K S) : Heap K S :=
  match h[r]? with
  | some m => h.set r (mapSet m k v)
  | none => h

/-- The first loop of `Merge` on the store. -/
def copyLoopH (h : Heap K S) (out : Nat) : List (K × HVal K S) → Heap K S
  | [] => h
  | (k, v) :: rest => copyLoopH (heapAssign h out k v) out rest

mutual
/-- The function `Merge` on the store: returns the new store and the
reference of the result.  The fuel bounds the depth of the recursion (a map
that contains itself makes the Go function recurse forever). -/
def MergeH : Nat → Heap K S → Option Nat → Option Nat → Option (Heap K S × Nat)
  | 0, _, _, _ => none
  | fuel + 1, h, a, b =>
    match heapRange h a with
    | none => none
    | some ea =>
      let out := h.length
      let h₁ := copyLoopH (h ++ [[]]) out ea
      match heapRange h₁ b with
      | none => none
      | some eb =>
        match mergeLoopH fuel h₁ out eb with
        | none => none
        | some h₂ => some (h₂, out)
termination_by fuel _ _ _ => (fuel, 0, 0)
/-- The second loop of `Merge` on the store. -/
def mergeLoopH : Nat → Heap K S → Nat → List (K × HVal K S) → Option (Heap K S)
  | _, h, _, [] => some h
  | fuel, h, out, (k, v) :: rest =>
    match v with
    | .map vb =>
      match heapIndex h out k with
      | some (.map bv) =>
        match MergeH fuel h bv vb with
        | none => none
        | some (h₁, r) => mergeLoopH fuel (heapAssign h₁ out k (.map (some r))) out rest
      | _ => mergeLoopH fuel (heapAssign h out k v) out rest
    | _ => mergeLoopH fuel (heapAssign h out k v) out rest
termination_by fuel _ _ l => (fuel, 1, l.length)
end

/-- The frame property of `MergeH` at a given fuel. -/
def FrameMerge (fuel : Nat) (K S : Type) [DecidableEq K] : Prop :=
  ∀ (h : Heap K S) (a b : Option Nat) (h' : Heap K S) (r : Nat),
    MergeH fuel h a b = some (h', r) →
      r = h.length ∧ h.length < h'.length ∧ ∀ p, p < h.length → h'[p]? = h[p]?

/-- The frame property of `mergeLoopH` at a given fuel: objects below `n` are
untouched when `out` is not below `n`. -/
def FrameLoop (fuel : Nat) (K S : Type) [DecidableEq K] : Prop :=
  ∀ (l : List (K × HVal K S)) (h : Heap K S) (out n : Nat) (h' : Heap K S),
    n ≤ out → n ≤ h.length → mergeLoopH fuel h out l = some h' →
      h.length ≤ h'.length ∧ ∀ p, p < n → h'[p]? = h[p]?

/-- A value refers to no map, or to a map that is `boundedFrom`. -/
def valBounded (bounded : Option Nat → Bool) : HVal K S → Bool
  | .scalar _ => true
  | .map r => bounded r

/-- The map at reference `r` is nested at most `d` levels deep in the store
`h`: every reference reached from it points into the store, none of them is
listed in `ns`, and no chain of nested maps is longer than `d` (so the map
does not contain itself).  The nil map is nested one level deep. -/
def boundedFrom : Nat → Heap K S → List Nat → Option Nat → Bool
  | 0, _, _, _ => false
  | _ + 1, _, _, none => true
  | d + 1, h, ns, some p =>
    decide (p ∉ ns) &&
      match h[p]? with
      | none => false
      | some es => es.all (fun e => valBounded (boundedFrom d h ns) e.2)

/-- With fuel `d`, `MergeH` returns on arguments nested at most `d` deep, and
its result is nested at most `d` deep and reaches no listed reference. -/
def ReturnsMerge (d : Nat) (K S : Type) [DecidableEq K] : Prop :=
  ∀ (h : Heap K S) (a b : Option Nat) (ns : List Nat),
    (∀ n, n ∈ ns → n < h.length) →
    boundedFrom d h ns a = true → boundedFrom d h ns b = true →
      ∃ h' r, MergeH d h a b = some (h', r) ∧ boundedFrom d h' ns (some r) = true


end Maps

namespace Testing

open Maps

/-- The constant `AnnotationKeyResourceName` of `opts_args.go`. -/
def AnnotationKeyResourceName : String := "fn.test/resource-name"

/-- The function `GetTestResourceName` of `opts_args.go`, for an object type
`O` that implements `AnnotatedObject` through its method `GetAnnotations`.
Indexing a Go map at a missing key yields the zero value, the empty string. -/
def GetTestResourceName {O : Type} (GetAnnotations : O → List (String × String)) (o : O) :
    String :=
  let ann := GetAnnotations o
  match mapGet ann AnnotationKeyResourceName with
  | some testAnn => testAnn
  | none => (mapGet ann "crossplane.io/composition-resource-name").getD ""

set_option linter.dupNamespace false

/-- The message `fnapi.Resource`: the manifest, the connection details and
the ready state. -/
structure Resource (St CD Rd : Type) where
  Resource : St
  ConnectionDetails : CD
  Ready : Rd

/-- The message `fnapi.State`. -/
structure State (St CD Rd : Type) where
  Composite : Option (Resource St CD Rd)
  Resources : List (String × Resource St CD Rd)

/-- The message `fnapi.RunFunctionResponse`: the desired state (a pointer
that may be nil) and the remaining fields, which the options below never
touch. -/
structure RunFunctionResponse (St CD Rd X : Type) where
  Desired : Option (State St CD Rd)
  Rest : X

/-- The struct `FunctionTest` of `run.go`: the expected response `res` and the
remaining fields (`fn`, `req`, `reqCtx`, `err`). -/
structure FunctionTest (St CD Rd X Y : Type) where
  res : RunFunctionResponse St CD Rd X
  rest : Y

/-- The chain `tc.res.GetDesired().GetResources()`: the getters are nil-safe,
a nil state has no resources. -/
def FunctionTest.desiredResources {St CD Rd X Y : Type} (tc : FunctionTest St CD Rd X Y) :
    List (String × Resource St CD Rd) :=
  match tc.res.Desired with
  | none => []
  | some st => st.Resources

/-- One iteration of `IgnoreDesiredResources`:
`delete(tc.res.GetDesired().GetResources(), n)`; deleting from the nil map of
a nil state does nothing. -/
def deleteDesired {St CD Rd X Y : Type} (tc : FunctionTest St CD Rd X Y) (n : String) :
    FunctionTest St CD Rd X Y :=
  match tc.res.Desired with
  | none => tc
  | some st =>
    ⟨⟨some ⟨st.Composite, mapDelete st.Resources n⟩, tc.res.Rest⟩, tc.rest⟩

/-- The option `IgnoreDesiredResources(names...)` of `opts_expect.go`, applied
to a test state. -/
def IgnoreDesiredResources {St CD Rd X Y : Type} (names : List String)
    (tc : FunctionTest St CD Rd X Y) : FunctionTest St CD Rd X Y :=
  names.foldl deleteDesired tc

/-- The type `unstructured.Unstructured`: its field `Object`. -/
structure Unstructured (S : Type) where
  Object : List (String × Value String S)

/-- The functions `ExpectDesiredResourcesYAMLOverride` calls whose code is
not part of the source files at hand, taken as parameters: the YAML reader
`yaml.UnmarshalObjects`, the accessors `GetAnnotations` and
`meta.RemoveAnnotations`, `protojson.Marshal`, `json.Unmarshal` and the helper
`mustObjectAsStruct`.  An error result of the last four stands for the panic
the caller raises. -/
structure Conversions (Raw S St Bytes : Type) where
  UnmarshalObjects : Raw → Except String (List (Unstructured S))
  GetAnnotations : Unstructured S → List (String × String)
  RemoveAnnotations : Unstructured S → String → Unstructured S
  protojsonMarshal : St → Except String Bytes
  jsonUnmarshal : Bytes → Except String (List (String × Value String S))
  mustObjectAsStruct : Unstructured S → Except String St

/-- The loop `for _, u := range uList` of `ExpectDesiredResourcesYAMLOverride`
on the map `tc.res.Desired.Resources`; `Except.error` is a panic with its
message. -/
def overrideLoop {Raw S St Bytes CD Rd : Type} (c : Conversions Raw S St Bytes)
    (resources : List (String × Resource St CD Rd)) :
    List (Unstructured S) → Except String (List (String × Resource St CD Rd))
  | [] => .ok resources
  | u :: rest =>
    let key := GetTestResourceName c.GetAnnotations u
    if key = "" then .error "override resource has no name annotation"
    else
      let u₁ := c.RemoveAnnotations u AnnotationKeyResourceName
      match mapGet resources key with
      | none => overrideLoop c resources rest
      | some desiredRes =>
        match c.protojsonMarshal desiredRes.Resource with
        | .error e => .error (key ++ ": " ++ e)
        | .ok resRaw =>
          match c.jsonUnmarshal resRaw with
          | .error e => .error (key ++ ": " ++ e)
          | .ok original =>
            let u₂ : Unstructured S := ⟨Merge original u₁.Object⟩
            match c.mustObjectAsStruct u₂ with
            | .error e => .error e
            | .ok str =>
              overrideLoop c
                (mapSet resources key ⟨str, desiredRes.ConnectionDetails, desiredRes.Ready⟩) rest

/-- The option `ExpectDesiredResourcesYAMLOverride(rawYAML)` of
`opts_expect.go`, applied to a test state.  It returns at once when the
desired state is nil or has no resources, before the YAML is read. -/
def ExpectDesiredResourcesYAMLOverride {Raw S St Bytes CD Rd X Y : Type}
    (c : Conversions Raw S St Bytes) (rawYAML : Raw) (tc : FunctionTest St CD Rd X Y) :
    Except String (FunctionTest St CD Rd X Y) :=
  match tc.res.Desired with
  | none => .ok tc
  | some st =>
    if st.Resources.length = 0 then .ok tc
    else
      match c.UnmarshalObjects rawYAML with
      | .error e => .error e
      | .ok uList =>
        match overrideLoop c st.Resources uList with
        | .error e => .error e
        | .ok rs => .ok ⟨⟨some ⟨st.Composite, rs⟩, tc.res.Rest⟩, tc.rest⟩

/-- The annotations of an object whose manifest is a tree of strings: the
string entries of `metadata.annotations`.  Part of `sampleConversions`. -/
def sampleAnnotations (u : Unstructured String) : List (String × String) :=
  match mapGet u.Object "metadata" with
  | some (.tree md) =>
    match mapGet md "annotations" with
    | some (.tree an) =>
      an.filterMap (fun e => match e.2 with
        | .scalar s => some (e.1, s)
        | _ => none)
    | _ => []
  | _ => []

/-- The object without the annotation `key`.  Part of `sampleConversions`. -/
def sampleRemoveAnnotations (u : Unstructured String) (key : String) : Unstructured String :=
  match mapGet u.Object "metadata" with
  | some (.tree md) =>
    match mapGet md "annotations" with
    | some (.tree an) =>
      ⟨mapSet u.Object "metadata" (.tree (mapSet md "annotations" (.tree (mapDelete an key))))⟩
    | _ => u
  | _ => u

/-- A small instance of the external conversions, on which the model can be
run: documents arrive already split, and a manifest is its own tree. -/
def sampleConversions :
    Conversions (List (Unstructured String)) String (List (String × Value String String))
      (List (String × Value String String)) where
  UnmarshalObjects := fun raw => .ok raw
  GetAnnotations := sampleAnnotations
  RemoveAnnotations := sampleRemoveAnnotations
  protojsonMarshal := fun s => .ok s
  jsonUnmarshal := fun b => .ok b
  mustObjectAsStruct := fun u => .ok u.Object

/-- An override document named `db` that sets `spec.size`. -/
def sampleOverride : Unstructured String :=
  ⟨[("metadata", .tree [("annotations", .tree [("fn.test/resource-name", .scalar "db")])]),
    ("spec", .tree [("size", .scalar "large")])]⟩

/-- A test state that expects the two desired resources `db` and `cache`. -/
def sampleTest : FunctionTest (List (String × Value String String)) Nat Bool Unit Unit :=
  ⟨⟨some ⟨none,
      [("db", ⟨[("spec", .tree [("size", .scalar "small"), ("zone", .scalar "a")])], 1, true⟩),
       ("cache", ⟨[("spec", .tree [("ttl", .scalar "5")])], 2, false⟩)]⟩, ()⟩, ()⟩

end Testing

namespace Maps

variable {K S V : Type} [DecidableEq K]

set_option linter.unusedSectionVars false

theorem mapGet_mapSet_same (m : List (K × V)) (k : K) (v : V) :
    mapGet (mapSet m k v) k = some v := by
  induction m with
  | nil => simp [mapSet, mapGet]
  | cons e rest ih =>
    obtain ⟨k', v'⟩ := e
    by_cases h : k' = k
    · simp [mapSet, mapGet, h]
    · simp [mapSet, mapGet, h, ih]

theorem mapGet_mapSet_other (m : List (K × V)) (k k' : K) (v : V) (h : k' ≠ k) :
    mapGet (mapSet m k v) k' = mapGet m k' := by
  induction m with
  | nil =>
    have : ¬ k = k' := fun e => h e.symm
    simp [mapSet, mapGet, this]
  | cons e rest ih =>
    obtain ⟨k₀, v₀⟩ := e
    by_cases h₀ : k₀ = k
    · subst h₀
      have : ¬ k₀ = k' := fun e => h e.symm
      simp [mapSet, mapGet, this]
    · by_cases h₁ : k₀ = k'
      · subst h₁; simp [mapSet, mapGet, h₀]
      · simp [mapSet, mapGet, h₀, h₁, ih]

theorem mapGet_eq_none_iff (m : List (K × V)) (k : K) :
    mapGet m k = none ↔ k ∉ mapKeys m := by
  induction m with
  | nil => simp [mapGet, mapKeys]
  | cons e rest ih =>
    obtain ⟨k₀, v₀⟩ := e
    by_cases h₀ : k₀ = k
    · simp [mapGet, mapKeys, h₀]
    · have : ¬ k = k₀ := fun e => h₀ e.symm
      simp only [mapKeys] at ih
      simp [mapGet, mapKeys, h₀, ih, this]

theorem mem_mapKeys_mapSet (m : List (K × V)) (k k' : K) (v : V) :
    k' ∈ mapKeys (mapSet m k v) ↔ k' = k ∨ k' ∈ mapKeys m := by
  induction m with
  | nil => simp [mapSet, mapKeys]
  | cons e rest ih =>
    obtain ⟨k₀, v₀⟩ := e
    simp only [mapKeys] at ih
    by_cases h₀ : k₀ = k
    · subst h₀; simp [mapSet, mapKeys]
    · simp [mapSet, mapKeys, h₀, ih]; tauto

theorem mergeLoop_nil (out : List (K × Value K S)) : mergeLoop out [] = out := by
  rw [mergeLoop]

theorem mergeLoop_cons (out : List (K × Value K S)) (k : K) (v : Value K S)
    (rest : List (K × Value K S)) :
    mergeLoop out ((k, v) :: rest) = mergeLoop (mapSet out k (mergeVal (mapGet out k) v)) rest := by
  cases v with
  | scalar s => simp [mergeLoop, mergeVal]
  | seq xs => simp [mergeLoop, mergeVal]
  | tree bm =>
    cases h : mapGet out k with
    | none => simp [mergeLoop, mergeVal, h]
    | some o =>
      cases o <;> simp [mergeLoop, mergeVal, h]


theorem mapGet_copyLoop (out a : List (K × V)) (ha : (mapKeys a).Nodup) (k : K) :
    mapGet (copyLoop out a) k =
      match mapGet a k with
      | some v => some v
      | none => mapGet out k := by
  induction a generalizing out with
  | nil => simp [copyLoop, mapGet]
  | cons e rest ih =>
    obtain ⟨k₀, v₀⟩ := e
    have hnd : k₀ ∉ mapKeys rest ∧ (mapKeys rest).Nodup := by
      simpa [mapKeys] using ha
    rw [copyLoop, ih _ hnd.2]
    by_cases h₀ : k₀ = k
    · subst h₀
      have hn : mapGet rest k₀ = none := (mapGet_eq_none_iff rest k₀).2 hnd.1
      simp [hn, mapGet, mapGet_mapSet_same]
    · have h₁ : k ≠ k₀ := fun e => h₀ e.symm
      simp [mapGet, h₀, mapGet_mapSet_other _ _ _ _ h₁]

theorem mapGet_mergeLoop (out b : List (K × Value K S)) (hb : (mapKeys b).Nodup) (k : K) :
    mapGet (mergeLoop out b) k =
      match mapGet b k with
      | some v => some (mergeVal (mapGet out k) v)
      | none => mapGet out k := by
  induction b generalizing out with
  | nil => simp [mergeLoop_nil, mapGet]
  | cons e rest ih =>
    obtain ⟨k₀, v₀⟩ := e
    have hnd : k₀ ∉ mapKeys rest ∧ (mapKeys rest).Nodup := by
      simpa [mapKeys] using hb
    rw [mergeLoop_cons, ih _ hnd.2]
    by_cases h₀ : k₀ = k
    · subst h₀
      have hn : mapGet rest k₀ = none := (mapGet_eq_none_iff rest k₀).2 hnd.1
      simp [hn, mapGet, mapGet_mapSet_same]
    · have h₁ : k ≠ k₀ := fun e => h₀ e.symm
      simp [mapGet, h₀, mapGet_mapSet_other _ _ _ _ h₁]

theorem mapGet_Merge (a b : List (K × Value K S)) (ha : (mapKeys a).Nodup)
    (hb : (mapKeys b).Nodup) (k : K) :
    mapGet (Merge a b) k =
      match mapGet b k with
      | some v => some (mergeVal (mapGet a k) v)
      | none => mapGet a k := by
  have hc : mapGet (copyLoop [] a) k = mapGet a k := by
    rw [mapGet_copyLoop _ _ ha]
    cases mapGet a k <;> simp [mapGet]
  rw [Merge, mapGet_mergeLoop _ _ hb, hc]

theorem mem_mapKeys_copyLoop (out a : List (K × V)) (k : K) :
    k ∈ mapKeys (copyLoop out a) ↔ k ∈ mapKeys out ∨ k ∈ mapKeys a := by
  induction a generalizing out with
  | nil => simp [copyLoop, mapKeys]
  | cons e rest ih =>
    obtain ⟨k₀, v₀⟩ := e
    rw [copyLoop, ih, mem_mapKeys_mapSet]
    simp [mapKeys]; tauto

theorem mem_mapKeys_mergeLoop (out b : List (K × Value K S)) (k : K) :
    k ∈ mapKeys (mergeLoop out b) ↔ k ∈ mapKeys out ∨ k ∈ mapKeys b := by
  induction b generalizing out with
  | nil => simp [mergeLoop_nil, mapKeys]
  | cons e rest ih =>
    obtain ⟨k₀, v₀⟩ := e
    rw [mergeLoop_cons, ih, mem_mapKeys_mapSet]
    simp [mapKeys]; tauto

theorem mapSet_fresh (m : List (K × V)) (k : K) (v : V) (h : k ∉ mapKeys m) :
    mapSet m k v = m ++ [(k, v)] := by
  induction m with
  | nil => simp [mapSet]
  | cons e rest ih =>
    obtain ⟨k₀, v₀⟩ := e
    have h' : ¬ k = k₀ ∧ k ∉ mapKeys rest := by simpa [mapKeys] using h
    have h₀ : ¬ k₀ = k := fun e => h'.1 e.symm
    simp [mapSet, h₀, ih h'.2]

theorem copyLoop_fresh (out a : List (K × V)) (h : (mapKeys (out ++ a)).Nodup) :
    copyLoop out a = out ++ a := by
  induction a generalizing out with
  | nil => simp [copyLoop]
  | cons e rest ih =>
    obtain ⟨k₀, v₀⟩ := e
    have hk : k₀ ∉ mapKeys out := by
      intro hm
      simp only [mapKeys, List.map_append, List.map_cons] at h
      exact (List.nodup_append.1 h).2.2 hm (List.mem_cons_self _ _)
    have e : out ++ (k₀, v₀) :: rest = (out ++ [(k₀, v₀)]) ++ rest := by simp
    rw [copyLoop, mapSet_fresh _ _ _ hk, ih, e]
    rw [← e]; exact h

theorem mergeLoop_fresh (out b : List (K × Value K S)) (h : (mapKeys (out ++ b)).Nodup) :
    mergeLoop out b = out ++ b := by
  induction b generalizing out with
  | nil => simp [mergeLoop_nil]
  | cons e rest ih =>
    obtain ⟨k₀, v₀⟩ := e
    have hk : k₀ ∉ mapKeys out := by
      intro hm
      simp only [mapKeys, List.map_append, List.map_cons] at h
      exact (List.nodup_append.1 h).2.2 hm (List.mem_cons_self _ _)
    have hn : mapGet out k₀ = none := (mapGet_eq_none_iff out k₀).2 hk
    have hv : mergeVal (none : Option (Value K S)) v₀ = v₀ := by
      cases v₀ <;> simp [mergeVal]
    have e : out ++ (k₀, v₀) :: rest = (out ++ [(k₀, v₀)]) ++ rest := by simp
    rw [mergeLoop_cons, hn, hv, mapSet_fresh _ _ _ hk, ih, e]
    rw [← e]; exact h

theorem denoteLookup_eq (m : List (K × Value K S)) (k : K) :
    denoteLookup m k = (mapGet m k).map Value.denote := by
  induction m with
  | nil => simp [denoteLookup, mapGet]
  | cons e rest ih =>
    obtain ⟨k₀, v₀⟩ := e
    by_cases h : k₀ = k <;> simp [denoteLookup, mapGet, h, ih]


theorem wfMap_cons (k : K) (v : Value K S) (rest : List (K × Value K S)) :
    wfMap ((k, v) :: rest) = true ↔ k ∉ mapKeys rest ∧ v.wf = true ∧ wfMap rest = true := by
  simp [wfMap, and_assoc]

theorem wfMap_nodup (m : List (K × Value K S)) (h : wfMap m = true) : (mapKeys m).Nodup := by
  induction m with
  | nil => simp [mapKeys]
  | cons e rest ih =>
    obtain ⟨k₀, v₀⟩ := e
    obtain ⟨h₁, -, h₃⟩ := (wfMap_cons k₀ v₀ rest).1 h
    have := ih h₃
    simp only [mapKeys] at this h₁
    simp [mapKeys, this, h₁]

theorem wf_of_mapGet (m : List (K × Value K S)) (h : wfMap m = true) (k : K) (v : Value K S)
    (hg : mapGet m k = some v) : v.wf = true := by
  induction m with
  | nil => simp [mapGet] at hg
  | cons e rest ih =>
    obtain ⟨k₀, v₀⟩ := e
    obtain ⟨-, h₂, h₃⟩ := (wfMap_cons k₀ v₀ rest).1 h
    by_cases h₀ : k₀ = k
    · simp [mapGet, h₀] at hg
      subst hg; exact h₂
    · simp [mapGet, h₀] at hg
      exact ih h₃ hg

theorem sizeOf_lt_of_mapGet (m : List (K × Value K S)) (k : K) (v : Value K S)
    (hg : mapGet m k = some v) : sizeOf v < sizeOf m := by
  induction m with
  | nil => simp [mapGet] at hg
  | cons e rest ih =>
    obtain ⟨k₀, v₀⟩ := e
    by_cases h₀ : k₀ = k
    · simp [mapGet, h₀] at hg
      subst hg
      simp
      omega
    · simp [mapGet, h₀] at hg
      have := ih hg
      simp
      omega

theorem denote_tree_eq (m m' : List (K × Value K S)) :
    (Value.tree m).denote = (Value.tree m').denote ↔ SameMap m m' := by
  simp only [Value.denote, Sem.tree.injEq, SameMap]
  constructor
  · intro h k; exact congrFun h k
  · intro h; funext k; exact h k

theorem Merge_sameMap_aux (n : Nat) :
    ∀ (a a' b b' : List (K × Value K S)), sizeOf b ≤ n →
      wfMap a = true → wfMap a' = true → wfMap b = true → wfMap b' = true →
      SameMap a a' → SameMap b b' → SameMap (Merge a b) (Merge a' b') := by
  induction n with
  | zero =>
    intro a a' b b' hn
    cases b <;> simp at hn
  | succ n ih =>
    intro a a' b b' hn wa wa' wb wb' hab hbb k
    have ha := hab k
    have hb := hbb k
    rw [denoteLookup_eq] at ha hb
    rw [denoteLookup_eq] at ha hb
    rw [denoteLookup_eq, denoteLookup_eq,
      mapGet_Merge a b (wfMap_nodup a wa) (wfMap_nodup b wb),
      mapGet_Merge a' b' (wfMap_nodup a' wa') (wfMap_nodup b' wb')]
    cases hgb : mapGet b k with
    | none =>
      cases hgb' : mapGet b' k with
      | none => simpa using ha
      | some v' => simp [hgb, hgb'] at hb
    | some v =>
      cases hgb' : mapGet b' k with
      | none => simp [hgb, hgb'] at hb
      | some v' =>
        simp only [hgb, hgb', Option.map_some', Option.some.injEq] at hb
        simp only [Option.map_some', Option.some.injEq]
        cases v with
        | scalar s =>
          cases v' <;> simp [Value.denote] at hb
          subst hb; simp [mergeVal]
        | seq xs =>
          cases v' <;> simp only [Value.denote, reduceCtorEq] at hb
          simp only [mergeVal]; simpa [Value.denote] using hb
        | tree bm =>
          cases v' with
          | scalar s => simp [Value.denote] at hb
          | seq xs => simp [Value.denote] at hb
          | tree bm' =>
            have hbm : SameMap bm bm' := (denote_tree_eq bm bm').1 hb
            cases hga : mapGet a k with
            | none =>
              cases hga' : mapGet a' k with
              | none => simpa [mergeVal] using hb
              | some va' => simp [hga, hga'] at ha
            | some va =>
              cases hga' : mapGet a' k with
              | none => simp [hga, hga'] at ha
              | some va' =>
                simp only [hga, hga', Option.map_some', Option.some.injEq] at ha
                cases va with
                | scalar s =>
                  cases va' <;> simp [Value.denote] at ha
                  simpa [mergeVal] using hb
                | seq xs =>
                  cases va' <;> simp only [Value.denote, reduceCtorEq] at ha
                  simpa [mergeVal] using hb
                | tree am =>
                  cases va' with
                  | scalar s => simp [Value.denote] at ha
                  | seq xs => simp [Value.denote] at ha
                  | tree am' =>
                    have ham : SameMap am am' := (denote_tree_eq am am').1 ha
                    simp only [mergeVal]
                    rw [denote_tree_eq]
                    have hsz := sizeOf_lt_of_mapGet b k _ hgb
                    simp at hsz
                    refine ih am am' bm bm' (by omega) ?_ ?_ ?_ ?_ ham hbm
                    · simpa [Value.wf] using wf_of_mapGet a wa k _ hga
                    · simpa [Value.wf] using wf_of_mapGet a' wa' k _ hga'
                    · simpa [Value.wf] using wf_of_mapGet b wb k _ hgb
                    · simpa [Value.wf] using wf_of_mapGet b' wb' k _ hgb'

theorem heapAssign_length (h : Heap K S) (r : Nat) (k : K) (v : HVal K S) :
    (heapAssign h r k v).length = h.length := by
  unfold heapAssign
  cases h[r]? <;> simp

theorem heapAssign_get_other (h : Heap K S) (r p : Nat) (k : K) (v : HVal K S) (hp : p ≠ r) :
    (heapAssign h r k v)[p]? = h[p]? := by
  unfold heapAssign
  cases h[r]? with
  | none => rfl
  | some m => simp [List.getElem?_set, Ne.symm hp]

theorem copyLoopH_length (h : Heap K S) (out : Nat) (l : List (K × HVal K S)) :
    (copyLoopH h out l).length = h.length := by
  induction l generalizing h with
  | nil => rfl
  | cons e rest ih =>
    obtain ⟨k, v⟩ := e
    rw [copyLoopH, ih, heapAssign_length]

theorem copyLoopH_get_other (h : Heap K S) (out p : Nat) (l : List (K × HVal K S))
    (hp : p ≠ out) : (copyLoopH h out l)[p]? = h[p]? := by
  induction l generalizing h with
  | nil => rfl
  | cons e rest ih =>
    obtain ⟨k, v⟩ := e
    rw [copyLoopH, ih, heapAssign_get_other _ _ _ _ _ hp]

theorem frameLoop_of_frameMerge (fuel : Nat) (hM : FrameMerge fuel K S) : FrameLoop fuel K S := by
  intro l
  induction l with
  | nil =>
    intro h out n h' _ _ hrun
    simp [mergeLoopH] at hrun
    subst hrun
    exact ⟨le_refl _, fun _ _ => rfl⟩
  | cons e rest ih =>
    obtain ⟨k, v⟩ := e
    intro h out n h' hno hnh hrun
    have plain : ∀ w, mergeLoopH fuel (heapAssign h out k w) out rest = some h' →
        h.length ≤ h'.length ∧ ∀ p, p < n → h'[p]? = h[p]? := by
      intro w hw
      have := ih (heapAssign h out k w) out n h' hno (by rw [heapAssign_length]; exact hnh) hw
      rw [heapAssign_length] at this
      refine ⟨this.1, fun p hp => ?_⟩
      rw [this.2 p hp, heapAssign_get_other _ _ _ _ _ (by omega)]
    cases v with
    | scalar s =>
      simp only [mergeLoopH] at hrun
      exact plain _ hrun
    | map vb =>
      cases hidx : heapIndex h out k with
      | none =>
        simp only [mergeLoopH, hidx] at hrun
        exact plain _ hrun
      | some o =>
        cases o with
        | scalar s =>
          simp only [mergeLoopH, hidx] at hrun
          exact plain _ hrun
        | map bv =>
          simp only [mergeLoopH, hidx] at hrun
          cases hm : MergeH fuel h bv vb with
          | none => simp [hm] at hrun
          | some res =>
            obtain ⟨h₁, r⟩ := res
            simp only [hm] at hrun
            obtain ⟨-, hlen, hfr⟩ := hM h bv vb h₁ r hm
            have := ih (heapAssign h₁ out k (.map (some r))) out n h' hno
              (by rw [heapAssign_length]; omega) hrun
            rw [heapAssign_length] at this
            refine ⟨by omega, fun p hp => ?_⟩
            rw [this.2 p hp, heapAssign_get_other _ _ _ _ _ (by omega), hfr p (by omega)]

theorem frameMerge_all (fuel : Nat) : FrameMerge fuel K S := by
  induction fuel with
  | zero =>
    intro h a b h' r hrun
    simp [MergeH] at hrun
  | succ fuel ih =>
    have hL := frameLoop_of_frameMerge fuel ih
    intro h a b h' r hrun
    rw [MergeH] at hrun
    cases hea : heapRange h a with
    | none => simp [hea] at hrun
    | some ea =>
      simp only [hea] at hrun
      cases heb : heapRange (copyLoopH (h ++ [[]]) h.length ea) b with
      | none => simp [heb] at hrun
      | some eb =>
        simp only [heb] at hrun
        cases hl : mergeLoopH fuel (copyLoopH (h ++ [[]]) h.length ea) h.length eb with
        | none => simp [hl] at hrun
        | some h₂ =>
          simp only [hl, Option.some.injEq, Prod.mk.injEq] at hrun
          obtain ⟨rfl, rfl⟩ := hrun
          have := hL eb _ h.length h.length h₂ (le_refl _)
            (by rw [copyLoopH_length]; simp) hl
          rw [copyLoopH_length] at this
          simp only [List.length_append, List.length_singleton] at this
          refine ⟨rfl, by omega, fun p hp => ?_⟩
          rw [this.2 p hp, copyLoopH_get_other _ _ _ _ (by omega)]
          simp [List.getElem?_append, hp]


theorem mem_mapSet (m : List (K × V)) (k : K) (v : V) (e : K × V) (he : e ∈ mapSet m k v) :
    e = (k, v) ∨ e ∈ m := by
  induction m with
  | nil => simpa [mapSet] using he
  | cons e₀ rest ih =>
    obtain ⟨k₀, v₀⟩ := e₀
    by_cases h₀ : k₀ = k
    · simp only [mapSet, h₀, if_true, List.mem_cons] at he
      rcases he with he | he
      · exact Or.inl he
      · exact Or.inr (List.mem_cons_of_mem _ he)
    · simp only [mapSet, h₀, if_false, List.mem_cons] at he
      rcases he with he | he
      · exact Or.inr (he ▸ List.mem_cons_self _ _)
      · rcases ih he with h | h
        · exact Or.inl h
        · exact Or.inr (List.mem_cons_of_mem _ h)

theorem mem_of_mapGet (m : List (K × V)) (k : K) (v : V) (h : mapGet m k = some v) :
    (k, v) ∈ m := by
  induction m with
  | nil => simp [mapGet] at h
  | cons e₀ rest ih =>
    obtain ⟨k₀, v₀⟩ := e₀
    by_cases h₀ : k₀ = k
    · simp [mapGet, h₀] at h
      subst h₀; subst h
      exact List.mem_cons_self _ _
    · simp [mapGet, h₀] at h
      exact List.mem_cons_of_mem _ (ih h)

theorem boundedFrom_succ_some (d : Nat) (h : Heap K S) (ns : List Nat) (p : Nat) :
    boundedFrom (d + 1) h ns (some p) = true ↔
      p ∉ ns ∧ ∃ es, h[p]? = some es ∧
        ∀ e, e ∈ es → valBounded (boundedFrom d h ns) e.2 = true := by
  rw [boundedFrom]
  cases hp : h[p]? with
  | none => simp
  | some es => simp [List.all_eq_true]

theorem boundedFrom_transfer (d : Nat) (h h' : Heap K S) (ns ns' : List Nat)
    (hns : ∀ p, p < h.length → p ∉ ns → p ∉ ns')
    (hfr : ∀ p, p < h.length → p ∉ ns → h'[p]? = h[p]?) :
    ∀ r, boundedFrom d h ns r = true → boundedFrom d h' ns' r = true := by
  induction d with
  | zero => intro r hr; simp [boundedFrom] at hr
  | succ d ih =>
    intro r hr
    cases r with
    | none => simp [boundedFrom]
    | some p =>
      rw [boundedFrom_succ_some] at hr ⊢
      obtain ⟨hp, es, hes, hall⟩ := hr
      have hlt : p < h.length := by
        by_contra hc
        rw [List.getElem?_eq_none (by omega)] at hes
        cases hes
      refine ⟨hns p hlt hp, es, (hfr p hlt hp).trans hes, fun e he => ?_⟩
      have := hall e he
      cases hv : e.2 with
      | scalar s => simp [valBounded]
      | map r' =>
        rw [hv] at this
        simp only [valBounded] at this ⊢
        exact ih r' this
theorem heapAssign_get_same (h : Heap K S) (r : Nat) (k : K) (v : HVal K S)
    (m : List (K × HVal K S)) (hm : h[r]? = some m) :
    (heapAssign h r k v)[r]? = some (mapSet m k v) := by
  have hlt : r < h.length := by
    by_contra hc
    rw [List.getElem?_eq_none (by omega)] at hm
    cases hm
  unfold heapAssign
  rw [hm]
  simp [List.getElem?_set, hlt]

theorem copyLoopH_get_same (out : Nat) (l : List (K × HVal K S)) :
    ∀ (h : Heap K S) (m₀ : List (K × HVal K S)), h[out]? = some m₀ →
      ∃ m, (copyLoopH h out l)[out]? = some m ∧ ∀ e, e ∈ m → e ∈ m₀ ∨ e ∈ l := by
  induction l with
  | nil =>
    intro h m₀ hm
    exact ⟨m₀, hm, fun e he => Or.inl he⟩
  | cons e₀ rest ih =>
    obtain ⟨k, v⟩ := e₀
    intro h m₀ hm
    obtain ⟨m, hm', hsub⟩ := ih (heapAssign h out k v) _ (heapAssign_get_same h out k v m₀ hm)
    refine ⟨m, by rw [copyLoopH]; exact hm', fun e he => ?_⟩
    rcases hsub e he with h₁ | h₁
    · rcases mem_mapSet m₀ k v e h₁ with h₂ | h₂
      · exact Or.inr (h₂ ▸ List.mem_cons_self _ _)
      · exact Or.inl h₂
    · exact Or.inr (List.mem_cons_of_mem _ h₁)

theorem returnsLoop_of_returnsMerge (d : Nat) (hM : ReturnsMerge d K S)
    (out : Nat) (ns : List Nat) (l : List (K × HVal K S)) :
    ∀ (h : Heap K S) (m : List (K × HVal K S)),
      (∀ n, n ∈ out :: ns → n < h.length) →
      h[out]? = some m →
      (∀ e, e ∈ m → valBounded (boundedFrom d h (out :: ns)) e.2 = true) →
      (∀ e, e ∈ l → valBounded (boundedFrom d h (out :: ns)) e.2 = true) →
      ∃ h' m', mergeLoopH d h out l = some h' ∧ h'[out]? = some m' ∧
        ∀ e, e ∈ m' → valBounded (boundedFrom d h' (out :: ns)) e.2 = true := by
  induction l with
  | nil =>
    intro h m _ hm hbm _
    exact ⟨h, m, by simp [mergeLoopH], hm, hbm⟩
  | cons e₀ rest ih =>
    obtain ⟨k, v⟩ := e₀
    intro h m hns hm hbm hbl
    have hout : out < h.length := hns out (List.mem_cons_self _ _)
    have keep : ∀ (h₂ : Heap K S), (∀ p, p < h.length → p ∉ out :: ns → h₂[p]? = h[p]?) →
        ∀ w : HVal K S, valBounded (boundedFrom d h (out :: ns)) w = true →
          valBounded (boundedFrom d h₂ (out :: ns)) w = true := by
      intro h₂ hfr w hw
      cases w with
      | scalar s => simp [valBounded]
      | map r =>
        simp only [valBounded] at hw ⊢
        exact boundedFrom_transfer d h h₂ _ _ (fun _ _ hp => hp) hfr r hw
    have plain : ∀ w : HVal K S, valBounded (boundedFrom d h (out :: ns)) w = true →
        ∃ h' m', mergeLoopH d (heapAssign h out k w) out rest = some h' ∧
          h'[out]? = some m' ∧
          ∀ e, e ∈ m' → valBounded (boundedFrom d h' (out :: ns)) e.2 = true := by
      intro w hw
      have hfr : ∀ p, p < h.length → p ∉ out :: ns → (heapAssign h out k w)[p]? = h[p]? := by
        intro p _ hp
        exact heapAssign_get_other h out p k w (fun e => hp (e ▸ List.mem_cons_self _ _))
      refine ih (heapAssign h out k w) (mapSet m k w)
        (fun n hn => by rw [heapAssign_length]; exact hns n hn)
        (heapAssign_get_same h out k w m hm) ?_ ?_
      · intro e he
        rcases mem_mapSet m k w e he with h₁ | h₁
        · subst h₁; exact keep _ hfr w hw
        · exact keep _ hfr e.2 (hbm e h₁)
      · intro e he
        exact keep _ hfr e.2 (hbl e (List.mem_cons_of_mem _ he))
    have hv : valBounded (boundedFrom d h (out :: ns)) v = true :=
      hbl (k, v) (List.mem_cons_self _ _)
    cases v with
    | scalar s =>
      simp only [mergeLoopH]
      exact plain _ hv
    | map vb =>
      cases hidx : heapIndex h out k with
      | none =>
        simp only [mergeLoopH, hidx]
        exact plain _ hv
      | some o =>
        cases o with
        | scalar s =>
          simp only [mergeLoopH, hidx]
          exact plain _ hv
        | map bv =>
          simp only [mergeLoopH, hidx]
          have hbv : boundedFrom d h (out :: ns) bv = true := by
            have hg : mapGet m k = some (.map bv) := by
              simpa [heapIndex, hm] using hidx
            simpa [valBounded] using hbm _ (mem_of_mapGet m k _ hg)
          obtain ⟨h₁, r, hrun, hr⟩ := hM h bv vb (out :: ns) hns hbv (by simpa [valBounded] using hv)
          obtain ⟨-, hlen, hfr₁⟩ := frameMerge_all d h bv vb h₁ r hrun
          rw [hrun]
          simp only
          have hfr₂ : ∀ p, p < h₁.length → p ∉ out :: ns →
              (heapAssign h₁ out k (.map (some r)))[p]? = h₁[p]? := by
            intro p _ hp
            exact heapAssign_get_other h₁ out p k _ (fun e => hp (e ▸ List.mem_cons_self _ _))
          have keep₁ : ∀ w : HVal K S, valBounded (boundedFrom d h (out :: ns)) w = true →
              valBounded (boundedFrom d (heapAssign h₁ out k (.map (some r))) (out :: ns)) w
                = true := by
            intro w hw
            refine keep _ (fun p hp hpn => ?_) w hw
            rw [hfr₂ p (by omega) hpn, hfr₁ p hp]
          have hm₁ : h₁[out]? = some m := (hfr₁ out hout).trans hm
          refine ih (heapAssign h₁ out k (.map (some r))) (mapSet m k (.map (some r)))
            (fun n hn => by rw [heapAssign_length]; have := hns n hn; omega)
            (heapAssign_get_same h₁ out k _ m hm₁) ?_ ?_
          · intro e he
            rcases mem_mapSet m k _ e he with h₂ | h₂
            · subst h₂
              simp only [valBounded]
              exact boundedFrom_transfer d h₁ _ _ _ (fun _ _ hp => hp) hfr₂ _ hr
            · exact keep₁ e.2 (hbm e h₂)
          · intro e he
            exact keep₁ e.2 (hbl e (List.mem_cons_of_mem _ he))


theorem returnsMerge_all (d : Nat) : ReturnsMerge d K S := by
  induction d with
  | zero =>
    intro h a b ns _ ha
    simp [boundedFrom] at ha
  | succ d ih =>
    intro h a b ns hns ha hb
    have entries : ∀ r : Option Nat, boundedFrom (d + 1) h ns r = true →
        ∃ es, heapRange h r = some es ∧
          ∀ e, e ∈ es → valBounded (boundedFrom d h ns) e.2 = true := by
      intro r hr
      cases r with
      | none => exact ⟨[], rfl, fun e he => by cases he⟩
      | some p =>
        obtain ⟨-, es, hes, hall⟩ := (boundedFrom_succ_some d h ns p).1 hr
        exact ⟨es, hes, hall⟩
    obtain ⟨ea, hea, hba⟩ := entries a ha
    obtain ⟨eb, heb, hbb⟩ := entries b hb
    have hnew : (h ++ [[]] : Heap K S)[h.length]? = some [] := by simp
    obtain ⟨m, hm, hsub⟩ := copyLoopH_get_same h.length ea (h ++ [[]]) [] hnew
    have hfr : ∀ p, p < h.length → (copyLoopH (h ++ [[]]) h.length ea)[p]? = h[p]? := by
      intro p hp
      rw [copyLoopH_get_other _ _ _ _ (by omega)]
      simp [List.getElem?_append, hp]
    have hlen : (copyLoopH (h ++ [[]]) h.length ea).length = h.length + 1 := by
      rw [copyLoopH_length]; simp
    have lift : ∀ w : HVal K S, valBounded (boundedFrom d h ns) w = true →
        valBounded (boundedFrom d (copyLoopH (h ++ [[]]) h.length ea) (h.length :: ns)) w
          = true := by
      intro w hw
      cases w with
      | scalar s => simp [valBounded]
      | map r =>
        simp only [valBounded] at hw ⊢
        refine boundedFrom_transfer d h _ ns _ (fun p hp hpn => ?_) (fun p hp _ => hfr p hp) r hw
        intro hmem
        rcases List.mem_cons.1 hmem with h₁ | h₁
        · omega
        · exact hpn h₁
    have heb' : heapRange (copyLoopH (h ++ [[]]) h.length ea) b = some eb := by
      cases b with
      | none => simpa [heapRange] using heb
      | some p =>
        simp only [heapRange] at heb ⊢
        have hp : p < h.length := by
          by_contra hc
          rw [List.getElem?_eq_none (by omega)] at heb
          cases heb
        rw [hfr p hp]; exact heb
    obtain ⟨h₂, m', hrun, hm', hbm'⟩ :=
      returnsLoop_of_returnsMerge d ih h.length ns eb (copyLoopH (h ++ [[]]) h.length ea) m
        (fun n hn => by
          rw [hlen]
          rcases List.mem_cons.1 hn with h₁ | h₁
          · omega
          · have := hns n h₁; omega)
        hm
        (fun e he => by
          rcases hsub e he with h₁ | h₁
          · cases h₁
          · exact lift e.2 (hba e h₁))
        (fun e he => lift e.2 (hbb e he))
    refine ⟨h₂, h.length, ?_, ?_⟩
    · rw [MergeH]
      simp only [hea, heb', hrun]
    · rw [boundedFrom_succ_some]
      refine ⟨fun hmem => ?_, m', hm', fun e he => ?_⟩
      · have := hns _ hmem; omega
      · have := hbm' e he
        cases hv : e.2 with
        | scalar s => simp [valBounded]
        | map r =>
          rw [hv] at this
          simp only [valBounded] at this ⊢
          exact boundedFrom_transfer d h₂ h₂ _ _
            (fun p _ hp hmem => hp (List.mem_cons_of_mem _ hmem)) (fun _ _ _ => rfl) r this

/-- Termination of `MergeH`: on a store in which both arguments are nested at
most `d` levels deep (all references valid, no map containing itself), fuel
`d` is enough for `MergeH` to return. -/
theorem MergeH_returns (d : Nat) (h : Heap K S) (a b : Option Nat)
    (ha : boundedFrom d h [] a = true) (hb : boundedFrom d h [] b = true) :
    ∃ h' r, MergeH d h a b = some (h', r) := by
  obtain ⟨h', r, hrun, -⟩ := returnsMerge_all d h a b [] (fun n hn => by cases hn) ha hb
  exact ⟨h', r, hrun⟩

theorem sameMap_refl (a : List (K × Value K S)) : SameMap a a := fun _ => rfl

theorem sameMap_trans {a b c : List (K × Value K S)} (h₁ : SameMap a b) (h₂ : SameMap b c) :
    SameMap a c := fun k => (h₁ k).trans (h₂ k)

theorem sameMap_cons (k : K) (v v' : Value K S) (rest rest' : List (K × Value K S))
    (hv : v.denote = v'.denote) (hr : SameMap rest rest') :
    SameMap ((k, v) :: rest) ((k, v') :: rest') := by
  intro x
  by_cases h : k = x <;> simp [denoteLookup, h, hv, hr x]

theorem sameMap_swap (k₁ k₂ : K) (v₁ v₂ : Value K S) (rest : List (K × Value K S))
    (hne : k₁ ≠ k₂) :
    SameMap ((k₁, v₁) :: (k₂, v₂) :: rest) ((k₂, v₂) :: (k₁, v₁) :: rest) := by
  intro x
  by_cases h₁ : k₁ = x
  · have h₂ : ¬ k₂ = x := fun e => hne (h₁.trans e.symm)
    simp [denoteLookup, h₁, h₂]
  · by_cases h₂ : k₂ = x <;> simp [denoteLookup, h₁, h₂]

theorem sameMap_mem_mapKeys {a b : List (K × Value K S)} (h : SameMap a b) (k : K) :
    k ∈ mapKeys a ↔ k ∈ mapKeys b := by
  have hk := h k
  rw [denoteLookup_eq, denoteLookup_eq] at hk
  have ha := mapGet_eq_none_iff a k
  have hb := mapGet_eq_none_iff b k
  cases hga : mapGet a k <;> cases hgb : mapGet b k <;> simp_all

/-- Claim C1 (recursion consistency): for maps `a` and `b` and a key `k` at
which both hold a tree, `Merge a b` holds at `k` the merge of the two trees;
scenarios 2 and 5 of the specification evaluate as stated. -/
theorem Merge_recursion_consistency :
    (∀ (K S : Type) [DecidableEq K] (a b : List (K × Value K S)),
      (mapKeys a).Nodup → (mapKeys b).Nodup →
      ∀ (k : K) (ta tb : List (K × Value K S)),
        mapGet a k = some (.tree ta) → mapGet b k = some (.tree tb) →
        mapGet (Merge a b) k = some (.tree (Merge ta tb)))
    ∧ Merge (K := String) (S := Int)
        [("x", .tree [("a", .scalar 1)])] [("x", .tree [("b", .scalar 2)])]
        = [("x", .tree [("a", .scalar 1), ("b", .scalar 2)])]
    ∧ Merge (K := String) (S := Int)
        [("a", .tree [("b", .tree [("c", .scalar 1)])])]
        [("a", .tree [("b", .tree [("d", .scalar 2)])])]
        = [("a", .tree [("b", .tree [("c", .scalar 1), ("d", .scalar 2)])])] := by
  refine ⟨?_, ?_, ?_⟩
  · intro K S _ a b ha hb k ta tb h₁ h₂
    rw [mapGet_Merge a b ha hb, h₂, h₁]
    simp [mergeVal]
  · simp [Merge, mergeLoop, copyLoop, mapSet, mapGet]
  · simp [Merge, mergeLoop, copyLoop, mapSet, mapGet]

/-- Claim C1 at the three-level scenario: the value at key `a` is the merge of
the two nested trees. -/
theorem Merge_recursion_consistency_witness :
    mapGet (Merge (K := String) (S := Int)
        [("a", .tree [("b", .tree [("c", .scalar 1)])])]
        [("a", .tree [("b", .tree [("d", .scalar 2)])])]) "a"
      = some (.tree (Merge [("b", .tree [("c", .scalar 1)])] [("b", .tree [("d", .scalar 2)])])) :=
  Merge_recursion_consistency.1 String Int _ _ (by decide) (by decide) "a" _ _
    (by simp [mapGet]) (by simp [mapGet])

/-- Claim C2 (overlay wins): for maps `a` and `b` and a key `k` present in
both, when the two values are not both trees, `Merge a b` holds at `k` the
value of `b`; scenarios 3 and 4 of the specification evaluate as stated. -/
theorem Merge_overlay_wins :
    (∀ (K S : Type) [DecidableEq K] (a b : List (K × Value K S)),
      (mapKeys a).Nodup → (mapKeys b).Nodup →
      ∀ (k : K) (va vb : Value K S),
        mapGet a k = some va → mapGet b k = some vb →
        ¬ (va.isTree = true ∧ vb.isTree = true) →
        mapGet (Merge a b) k = some vb)
    ∧ Merge (K := String) (S := Int) [("x", .tree [("a", .scalar 1)])] [("x", .scalar 5)]
        = [("x", .scalar 5)]
    ∧ Merge (K := String) (S := Int) [("x", .scalar 5)] [("x", .tree [("a", .scalar 1)])]
        = [("x", .tree [("a", .scalar 1)])] := by
  refine ⟨?_, ?_, ?_⟩
  · intro K S _ a b ha hb k va vb h₁ h₂ hnt
    rw [mapGet_Merge a b ha hb, h₂, h₁]
    cases vb with
    | scalar s => simp [mergeVal]
    | seq xs => simp [mergeVal]
    | tree tb =>
      cases va with
      | scalar s => simp [mergeVal]
      | seq xs => simp [mergeVal]
      | tree ta => exact absurd ⟨rfl, rfl⟩ hnt
  · simp [Merge, mergeLoop, copyLoop, mapSet, mapGet]
  · simp [Merge, mergeLoop, copyLoop, mapSet, mapGet]

/-- Claim C2 at scenario 4: the overlay tree replaces the base scalar. -/
theorem Merge_overlay_wins_witness :
    mapGet (Merge (K := String) (S := Int) [("x", .scalar 5)] [("x", .tree [("a", .scalar 1)])]) "x"
      = some (.tree [("a", .scalar 1)]) :=
  Merge_overlay_wins.1 String Int _ _ (by decide) (by decide) "x" (.scalar 5) _
    (by simp [mapGet]) (by simp [mapGet]) (by simp [Value.isTree])

/-- Claim C3 (key set): a key is a key of `Merge a b` exactly when it is a key
of `a` or a key of `b`. -/
theorem Merge_keys_union (a b : List (K × Value K S)) (k : K) :
    k ∈ mapKeys (Merge a b) ↔ k ∈ mapKeys a ∨ k ∈ mapKeys b := by
  rw [Merge, mem_mapKeys_mergeLoop, mem_mapKeys_copyLoop]
  simp [mapKeys]

/-- Claim C4 (keys of one side): for maps `a` and `b`, a key present only in
`a` keeps the value of `a`, a key present only in `b` keeps the value of `b`,
whatever the value is; scenario 1 of the specification evaluates as stated. -/
theorem Merge_single_side :
    (∀ (K S : Type) [DecidableEq K] (a b : List (K × Value K S)),
      (mapKeys a).Nodup → (mapKeys b).Nodup →
      ∀ (k : K) (v : Value K S),
        (mapGet a k = some v → mapGet b k = none → mapGet (Merge a b) k = some v) ∧
        (mapGet a k = none → mapGet b k = some v → mapGet (Merge a b) k = some v))
    ∧ Merge (K := String) (S := Int) [("x", .scalar 1)] [("y", .scalar 2)]
        = [("x", .scalar 1), ("y", .scalar 2)] := by
  refine ⟨?_, ?_⟩
  · intro K S _ a b ha hb k v
    constructor
    · intro h₁ h₂
      rw [mapGet_Merge a b ha hb, h₂, h₁]
    · intro h₁ h₂
      rw [mapGet_Merge a b ha hb, h₂, h₁]
      cases v <;> simp [mergeVal]
  · simp [Merge, mergeLoop, copyLoop, mapSet, mapGet]

/-- Claim C4 on a base with a scalar at `x` and an overlay with a tree at
`y`. -/
theorem Merge_single_side_witness :
    mapGet (Merge (K := String) (S := Int) [("x", .scalar 1)] [("y", .tree [("a", .scalar 2)])]) "x"
      = some (.scalar 1) ∧
    mapGet (Merge (K := String) (S := Int) [("x", .scalar 1)] [("y", .tree [("a", .scalar 2)])]) "y"
      = some (.tree [("a", .scalar 2)]) :=
  ⟨(Merge_single_side.1 String Int _ _ (by decide) (by decide) "x" _).1
      (by simp [mapGet]) (by simp [mapGet]),
   (Merge_single_side.1 String Int _ _ (by decide) (by decide) "y" _).2
      (by simp [mapGet]) (by simp [mapGet])⟩

/-- Claim C5 (empty identity): for every map `a`, `Merge a {}` and
`Merge {} a` are `a`, entry for entry; `Merge {} {}` is the empty map, and on
the store the merge of two maps without entries returns a reference to a new
object without entries (never the nil map). -/
theorem Merge_empty_identity :
    (∀ (K S : Type) [DecidableEq K] (a : List (K × Value K S)),
      (mapKeys a).Nodup → Merge a [] = a ∧ Merge [] a = a)
    ∧ (∀ (K S : Type) [DecidableEq K], Merge ([] : List (K × Value K S)) [] = [])
    ∧ (∀ (K S : Type) [DecidableEq K] (h : Heap K S) (a b : Option Nat),
        heapRange h a = some [] → heapRange h b = some [] →
        MergeH 1 h a b = some (h ++ [[]], h.length)) := by
  refine ⟨?_, ?_, ?_⟩
  · intro K S _ a ha
    constructor
    · rw [Merge, mergeLoop_nil, copyLoop_fresh _ _ (by simpa using ha)]; simp
    · rw [Merge, copyLoop, mergeLoop_fresh _ _ (by simpa using ha)]; simp
  · intro K S _
    rw [Merge, mergeLoop_nil, copyLoop]
  · intro K S _ h a b ha hb
    have hb' : heapRange (h ++ [[]]) b = some [] := by
      cases b with
      | none => simp [heapRange]
      | some p =>
        simp only [heapRange] at hb ⊢
        have hp : p < h.length := by
          by_contra hc
          rw [List.getElem?_eq_none (by omega)] at hb
          cases hb
        rw [List.getElem?_append_left hp]
        exact hb
    simp [MergeH, ha, hb', copyLoopH, mergeLoopH]

/-- Claim C5 on a two-entry map with a nested tree, and on a store whose two
objects have no entries. -/
theorem Merge_empty_identity_witness :
    (Merge (K := String) (S := Int) [("x", .tree [("a", .scalar 1)]), ("y", .scalar 2)] []
      = [("x", .tree [("a", .scalar 1)]), ("y", .scalar 2)] ∧
    Merge (K := String) (S := Int) [] [("x", .tree [("a", .scalar 1)]), ("y", .scalar 2)]
      = [("x", .tree [("a", .scalar 1)]), ("y", .scalar 2)]) ∧
    MergeH (K := String) (S := Int) 1 [[], []] (some 0) (some 1) = some ([[], [], []], 2) :=
  ⟨Merge_empty_identity.1 String Int _ (by decide),
   Merge_empty_identity.2.2 String Int [[], []] (some 0) (some 1) rfl rfl⟩


/-- Claim C6 (no mutation): when `Merge` returns on a store `h`, its result is
a map object that did not exist in `h`, and every map object of `h` (the
arguments and all maps nested in them included) has the entries it had
before: all writes went to objects created during the call. -/
theorem MergeH_frame (fuel : Nat) (h : Heap K S) (a b : Option Nat) (h' : Heap K S) (r : Nat)
    (hrun : MergeH fuel h a b = some (h', r)) :
    r = h.length ∧ h.length < h'.length ∧ ∀ p, p < h.length → h'[p]? = h[p]? :=
  frameMerge_all fuel h a b h' r hrun

/-- Claim C6 on a store of four objects, where the arguments at references 1
and 3 hold nested maps at key `a`: the call returns, allocates objects 4 and
5, and leaves objects 0 to 3 as they were. -/
theorem MergeH_frame_witness :
    MergeH (K := String) (S := Int) 5
        [[("b", .scalar 1)], [("a", .map (some 0)), ("z", .scalar 9)],
         [("c", .scalar 2)], [("a", .map (some 2))]] (some 1) (some 3)
      = some ([[("b", .scalar 1)], [("a", .map (some 0)), ("z", .scalar 9)],
               [("c", .scalar 2)], [("a", .map (some 2))],
               [("a", .map (some 5)), ("z", .scalar 9)],
               [("b", .scalar 1), ("c", .scalar 2)]], 4)
    ∧ (4 = ([[("b", .scalar 1)], [("a", .map (some 0)), ("z", .scalar 9)],
             [("c", .scalar 2)], [("a", .map (some 2))]] : Heap String Int).length
      ∧ ([[("b", .scalar 1)], [("a", .map (some 0)), ("z", .scalar 9)],
             [("c", .scalar 2)], [("a", .map (some 2))]] : Heap String Int).length
          < ([[("b", .scalar 1)], [("a", .map (some 0)), ("z", .scalar 9)],
               [("c", .scalar 2)], [("a", .map (some 2))],
               [("a", .map (some 5)), ("z", .scalar 9)],
               [("b", .scalar 1), ("c", .scalar 2)]] : Heap String Int).length
      ∧ ∀ p, p < ([[("b", .scalar 1)], [("a", .map (some 0)), ("z", .scalar 9)],
             [("c", .scalar 2)], [("a", .map (some 2))]] : Heap String Int).length →
          ([[("b", .scalar 1)], [("a", .map (some 0)), ("z", .scalar 9)],
               [("c", .scalar 2)], [("a", .map (some 2))],
               [("a", .map (some 5)), ("z", .scalar 9)],
               [("b", .scalar 1), ("c", .scalar 2)]] : Heap String Int)[p]?
          = ([[("b", .scalar 1)], [("a", .map (some 0)), ("z", .scalar 9)],
             [("c", .scalar 2)], [("a", .map (some 2))]] : Heap String Int)[p]?) :=
  ⟨by simp [MergeH, mergeLoopH, copyLoopH, heapAssign, heapIndex, heapRange, mapSet, mapGet],
   MergeH_frame 5 _ (some 1) (some 3) _ 4
     (by simp [MergeH, mergeLoopH, copyLoopH, heapAssign, heapIndex, heapRange, mapSet, mapGet])⟩

/-- Claim C7 (independence of iteration order): when `a'` lists the same map
as `a` and `b'` the same map as `b`, in any order at any level of nesting,
`Merge a' b'` lists the same map as `Merge a b`: the same key set, and at
every key values of the same content. -/
theorem Merge_order_independent (a a' b b' : List (K × Value K S))
    (wa : wfMap a = true) (wa' : wfMap a' = true) (wb : wfMap b = true) (wb' : wfMap b' = true)
    (hab : SameMap a a') (hbb : SameMap b b') :
    SameMap (Merge a b) (Merge a' b') ∧
      ∀ k, k ∈ mapKeys (Merge a b) ↔ k ∈ mapKeys (Merge a' b') := by
  have h := Merge_sameMap_aux (sizeOf b) a a' b b' (le_refl _) wa wa' wb wb' hab hbb
  exact ⟨h, sameMap_mem_mapKeys h⟩

/-- Claim C7 on a base and an overlay listed in two orders, at the top level
and inside the tree at key `x`. -/
theorem Merge_order_independent_witness :
    SameMap
        (Merge (K := String) (S := Int)
          [("x", .tree [("p", .scalar 1), ("q", .scalar 2)]), ("y", .scalar 3)]
          [("x", .tree [("q", .scalar 5), ("r", .scalar 6)]), ("z", .scalar 7)])
        (Merge
          [("y", .scalar 3), ("x", .tree [("q", .scalar 2), ("p", .scalar 1)])]
          [("z", .scalar 7), ("x", .tree [("r", .scalar 6), ("q", .scalar 5)])])
    ∧ ∀ k, k ∈ mapKeys (Merge (K := String) (S := Int)
          [("x", .tree [("p", .scalar 1), ("q", .scalar 2)]), ("y", .scalar 3)]
          [("x", .tree [("q", .scalar 5), ("r", .scalar 6)]), ("z", .scalar 7)])
        ↔ k ∈ mapKeys (Merge (K := String) (S := Int)
          [("y", .scalar 3), ("x", .tree [("q", .scalar 2), ("p", .scalar 1)])]
          [("z", .scalar 7), ("x", .tree [("r", .scalar 6), ("q", .scalar 5)])]) :=
  Merge_order_independent _ _ _ _ (by decide) (by decide) (by decide) (by decide)
    (sameMap_trans
      (sameMap_swap "x" "y" _ _ [] (by decide))
      (sameMap_cons "y" _ _ _ _ rfl
        (sameMap_cons "x" _ _ [] []
          ((denote_tree_eq _ _).2 (sameMap_swap "p" "q" _ _ [] (by decide)))
          (sameMap_refl []))))
    (sameMap_trans
      (sameMap_swap "x" "z" _ _ [] (by decide))
      (sameMap_cons "z" _ _ _ _ rfl
        (sameMap_cons "x" _ _ [] []
          ((denote_tree_eq _ _).2 (sameMap_swap "q" "r" _ _ [] (by decide)))
          (sameMap_refl []))))

end Maps

namespace Testing

open Maps

theorem mapGet_filter_key {V : Type} (m : List (String × V)) (p : String → Bool) (n : String) :
    mapGet (m.filter (fun e => p e.1)) n = if p n = true then mapGet m n else none := by
  induction m with
  | nil => simp [mapGet]
  | cons e rest ih =>
    obtain ⟨k, v⟩ := e
    by_cases hp : p k = true
    · by_cases hk : k = n
      · subst hk; simp [List.filter, hp, mapGet]
      · simp [List.filter, hp, mapGet, hk, ih]
    · by_cases hk : k = n
      · subst hk
        simp only [Bool.not_eq_true] at hp
        simp [List.filter, hp, mapGet, ih]
      · simp only [Bool.not_eq_true] at hp
        simp [List.filter, hp, mapGet, hk, ih]

theorem mapDelete_absent {V : Type} (m : List (String × V)) (n : String)
    (h : mapGet m n = none) : mapDelete m n = m := by
  have hk := (mapGet_eq_none_iff m n).1 h
  unfold mapDelete
  rw [List.filter_eq_self]
  intro e he
  have : e.1 ≠ n := by
    intro heq
    apply hk
    rw [← heq]
    exact List.mem_map_of_mem Prod.fst he
  simpa using this

theorem desiredResources_deleteDesired {St CD Rd X Y : Type} (tc : FunctionTest St CD Rd X Y)
    (n : String) :
    (deleteDesired tc n).desiredResources = mapDelete tc.desiredResources n := by
  unfold deleteDesired FunctionTest.desiredResources
  cases h : tc.res.Desired with
  | none => simp [h, mapDelete]
  | some st => simp

theorem deleteDesired_absent {St CD Rd X Y : Type} (tc : FunctionTest St CD Rd X Y)
    (n : String) (h : mapGet tc.desiredResources n = none) : deleteDesired tc n = tc := by
  obtain ⟨⟨d, x⟩, y⟩ := tc
  cases d with
  | none => rfl
  | some st =>
    obtain ⟨c, rs⟩ := st
    simp only [FunctionTest.desiredResources] at h
    simp [deleteDesired, mapDelete_absent rs n h]

theorem desiredResources_Ignore {St CD Rd X Y : Type} (names : List String)
    (tc : FunctionTest St CD Rd X Y) :
    (IgnoreDesiredResources names tc).desiredResources
      = tc.desiredResources.filter (fun e => decide (e.1 ∉ names)) := by
  unfold IgnoreDesiredResources
  induction names generalizing tc with
  | nil => simp
  | cons n rest ih =>
    rw [List.foldl_cons, ih, desiredResources_deleteDesired, mapDelete, List.filter_filter]
    congr 1
    funext e
    by_cases h₁ : e.1 = n <;> by_cases h₂ : e.1 ∈ rest <;> simp [h₁, h₂]

theorem Ignore_absent {St CD Rd X Y : Type} (names : List String)
    (tc : FunctionTest St CD Rd X Y)
    (h : ∀ n, n ∈ names → mapGet tc.desiredResources n = none) :
    IgnoreDesiredResources names tc = tc := by
  unfold IgnoreDesiredResources
  induction names with
  | nil => rfl
  | cons n rest ih =>
    rw [List.foldl_cons, deleteDesired_absent tc n (h n (List.mem_cons_self _ _))]
    exact ih (fun m hm => h m (List.mem_cons_of_mem _ hm))

theorem mem_mapKeys_mapSet_present {V : Type} (m : List (String × V)) (k n : String) (v w : V)
    (h : mapGet m k = some w) : n ∈ mapKeys (mapSet m k v) ↔ n ∈ mapKeys m := by
  rw [mem_mapKeys_mapSet]
  constructor
  · rintro (rfl | h')
    · by_contra hc
      rw [(mapGet_eq_none_iff m n).2 hc] at h
      cases h
    · exact h'
  · exact Or.inr

theorem overrideLoop_frame {Raw S St Bytes CD Rd : Type} (c : Conversions Raw S St Bytes)
    (uList : List (Unstructured S)) :
    ∀ (rs rs' : List (String × Resource St CD Rd)), overrideLoop c rs uList = .ok rs' →
      (∀ n, n ∈ mapKeys rs' ↔ n ∈ mapKeys rs) ∧
      (∀ n, (∀ u, u ∈ uList → GetTestResourceName c.GetAnnotations u ≠ n) →
        mapGet rs' n = mapGet rs n) := by
  induction uList with
  | nil =>
    intro rs rs' h
    simp only [overrideLoop, Except.ok.injEq] at h
    subst h
    exact ⟨fun _ => Iff.rfl, fun _ _ => rfl⟩
  | cons u rest ih =>
    intro rs rs' h
    have tail : ∀ rs₁, overrideLoop c rs₁ rest = .ok rs' →
        (∀ n, n ∈ mapKeys rs₁ ↔ n ∈ mapKeys rs) →
        (∀ n, GetTestResourceName c.GetAnnotations u ≠ n → mapGet rs₁ n = mapGet rs n) →
        (∀ n, n ∈ mapKeys rs' ↔ n ∈ mapKeys rs) ∧
        (∀ n, (∀ u', u' ∈ u :: rest → GetTestResourceName c.GetAnnotations u' ≠ n) →
          mapGet rs' n = mapGet rs n) := by
      intro rs₁ h₁ hk hg
      obtain ⟨ik, ig⟩ := ih rs₁ rs' h₁
      refine ⟨fun n => (ik n).trans (hk n), fun n hn => ?_⟩
      rw [ig n (fun u' hu' => hn u' (List.mem_cons_of_mem _ hu')),
        hg n (hn u (List.mem_cons_self _ _))]
    rw [overrideLoop] at h
    simp only at h
    split at h
    · cases h
    · split at h
      · exact tail rs h (fun _ => Iff.rfl) (fun _ _ => rfl)
      · rename_i desiredRes hget
        split at h
        · cases h
        · split at h
          · cases h
          · split at h
            · cases h
            · rename_i str _
              refine tail _ h (fun n => mem_mapKeys_mapSet_present rs _ n _ _ hget) ?_
              intro n hn
              exact mapGet_mapSet_other rs _ n _ (Ne.symm hn)

/-- Claim C8 (resource name of an object): when the annotations of `o` contain
`fn.test/resource-name`, `GetTestResourceName` returns its value; when they do
not, it returns the value of `crossplane.io/composition-resource-name`, and
the empty string when that annotation is absent as well. -/
theorem GetTestResourceName_spec {O : Type} (GetAnnotations : O → List (String × String))
    (o : O) :
    (∀ v, mapGet (GetAnnotations o) "fn.test/resource-name" = some v →
      GetTestResourceName GetAnnotations o = v) ∧
    (mapGet (GetAnnotations o) "fn.test/resource-name" = none →
      (∀ w, mapGet (GetAnnotations o) "crossplane.io/composition-resource-name" = some w →
        GetTestResourceName GetAnnotations o = w) ∧
      (mapGet (GetAnnotations o) "crossplane.io/composition-resource-name" = none →
        GetTestResourceName GetAnnotations o = "")) := by
  refine ⟨fun v hv => ?_, fun hn => ⟨fun w hw => ?_, fun hw => ?_⟩⟩
  · simp [GetTestResourceName, AnnotationKeyResourceName, hv]
  · simp [GetTestResourceName, AnnotationKeyResourceName, hn, hw]
  · simp [GetTestResourceName, AnnotationKeyResourceName, hn, hw]

/-- Claim C8 on three objects: one with both annotations, one with the
fallback annotation only, one with neither. -/
theorem GetTestResourceName_spec_witness :
    GetTestResourceName (fun o : List (String × String) => o)
        [("crossplane.io/composition-resource-name", "b"), ("fn.test/resource-name", "a")] = "a" ∧
    GetTestResourceName (fun o : List (String × String) => o)
        [("crossplane.io/composition-resource-name", "b")] = "b" ∧
    GetTestResourceName (fun o : List (String × String) => o) [("other", "c")] = "" :=
  ⟨(GetTestResourceName_spec (fun o : List (String × String) => o)
      [("crossplane.io/composition-resource-name", "b"), ("fn.test/resource-name", "a")]).1 "a"
      (by decide),
   ((GetTestResourceName_spec (fun o : List (String × String) => o)
      [("crossplane.io/composition-resource-name", "b")]).2 (by decide)).1 "b" (by decide),
   ((GetTestResourceName_spec (fun o : List (String × String) => o)
      [("other", "c")]).2 (by decide)).2 (by decide)⟩

/-- Claim C9 (ignored resources): after `IgnoreDesiredResources names` the
expected desired resources are the previous ones without the entries whose
name is listed: no listed name remains, every other name keeps its resource,
and when no listed name is present the test state is unchanged. -/
theorem IgnoreDesiredResources_spec {St CD Rd X Y : Type} (names : List String)
    (tc : FunctionTest St CD Rd X Y) :
    (IgnoreDesiredResources names tc).desiredResources
        = tc.desiredResources.filter (fun e => decide (e.1 ∉ names)) ∧
    (∀ n, n ∈ names → mapGet (IgnoreDesiredResources names tc).desiredResources n = none) ∧
    (∀ n, n ∉ names →
      mapGet (IgnoreDesiredResources names tc).desiredResources n
        = mapGet tc.desiredResources n) ∧
    ((∀ n, n ∈ names → mapGet tc.desiredResources n = none) →
      IgnoreDesiredResources names tc = tc) := by
  refine ⟨desiredResources_Ignore names tc, fun n hn => ?_, fun n hn => ?_,
    Ignore_absent names tc⟩
  · rw [desiredResources_Ignore, mapGet_filter_key _ (fun k => decide (k ∉ names))]
    simp [hn]
  · rw [desiredResources_Ignore, mapGet_filter_key _ (fun k => decide (k ∉ names))]
    simp [hn]

/-- Claim C9 on the sample test state, ignoring `cache` and a name that is
not desired. -/
theorem IgnoreDesiredResources_spec_witness :
    mapGet (IgnoreDesiredResources ["cache", "queue"] sampleTest).desiredResources "cache" = none ∧
    mapGet (IgnoreDesiredResources ["cache", "queue"] sampleTest).desiredResources "db"
      = mapGet sampleTest.desiredResources "db" ∧
    IgnoreDesiredResources ["queue"] sampleTest = sampleTest :=
  ⟨(IgnoreDesiredResources_spec ["cache", "queue"] sampleTest).2.1 "cache" (by decide),
   (IgnoreDesiredResources_spec ["cache", "queue"] sampleTest).2.2.1 "db" (by decide),
   (IgnoreDesiredResources_spec ["queue"] sampleTest).2.2.2
     (by simp [sampleTest, FunctionTest.desiredResources, mapGet])⟩

/-- Claim C10 (override only touches desired resources): when
`ExpectDesiredResourcesYAMLOverride` completes, the names of the expected
desired resources are the names before, every resource whose name is not the
resource name of an override document is unchanged, and a test state without
desired resources is returned unchanged. -/
theorem ExpectDesiredResourcesYAMLOverride_frame {Raw S St Bytes CD Rd X Y : Type}
    (c : Conversions Raw S St Bytes) (rawYAML : Raw) (tc tc' : FunctionTest St CD Rd X Y)
    (hrun : ExpectDesiredResourcesYAMLOverride c rawYAML tc = .ok tc') :
    (∀ n, n ∈ mapKeys tc'.desiredResources ↔ n ∈ mapKeys tc.desiredResources) ∧
    (∀ uList, c.UnmarshalObjects rawYAML = .ok uList →
      ∀ n, (∀ u, u ∈ uList → GetTestResourceName c.GetAnnotations u ≠ n) →
        mapGet tc'.desiredResources n = mapGet tc.desiredResources n) ∧
    (tc.desiredResources = [] → tc' = tc) := by
  unfold ExpectDesiredResourcesYAMLOverride at hrun
  cases hd : tc.res.Desired with
  | none =>
    simp only [hd, Except.ok.injEq] at hrun
    subst hrun
    exact ⟨fun _ => Iff.rfl, fun _ _ _ _ => rfl, fun _ => rfl⟩
  | some st =>
    simp only [hd] at hrun
    by_cases hlen : st.Resources.length = 0
    · simp only [hlen, if_true, Except.ok.injEq] at hrun
      subst hrun
      exact ⟨fun _ => Iff.rfl, fun _ _ _ _ => rfl, fun _ => rfl⟩
    · simp only [hlen, if_false] at hrun
      have hres : tc.desiredResources = st.Resources := by
        simp [FunctionTest.desiredResources, hd]
      cases hu : c.UnmarshalObjects rawYAML with
      | error e => simp [hu] at hrun
      | ok uList =>
        simp only [hu] at hrun
        cases hl : overrideLoop c st.Resources uList with
        | error e => simp [hl] at hrun
        | ok rs =>
          simp only [hl, Except.ok.injEq] at hrun
          subst hrun
          obtain ⟨hk, hg⟩ := overrideLoop_frame c uList st.Resources rs hl
          refine ⟨?_, ?_, ?_⟩
          · intro n
            rw [hres]
            exact hk n
          · intro uList' hu' n hn
            rw [hres]
            simp only [Except.ok.injEq] at hu'
            subst hu'
            exact hg n hn
          · intro hempty
            rw [hres] at hempty
            exact absurd (by simp [hempty]) hlen

/-- Claim C10 on the sample test state and one override document named `db`:
the run completes, `db` is merged with the override, the names stay `db` and
`cache`, and `cache` is unchanged. -/
theorem ExpectDesiredResourcesYAMLOverride_frame_witness :
    ExpectDesiredResourcesYAMLOverride sampleConversions [sampleOverride] sampleTest
      = .ok ⟨⟨some ⟨none,
          [("db", ⟨[("spec", .tree [("size", .scalar "large"), ("zone", .scalar "a")]),
                    ("metadata", .tree [("annotations", .tree [])])], 1, true⟩),
           ("cache", ⟨[("spec", .tree [("ttl", .scalar "5")])], 2, false⟩)]⟩, ()⟩, ()⟩
    ∧ (∀ n, n ∈ mapKeys (FunctionTest.desiredResources
          (⟨⟨some ⟨none,
          [("db", ⟨[("spec", .tree [("size", .scalar "large"), ("zone", .scalar "a")]),
                    ("metadata", .tree [("annotations", .tree [])])], 1, true⟩),
           ("cache", ⟨[("spec", .tree [("ttl", .scalar "5")])], 2, false⟩)]⟩, ()⟩, ()⟩ :
            FunctionTest (List (String × Value String String)) Nat Bool Unit Unit))
        ↔ n ∈ mapKeys sampleTest.desiredResources) :=
  ⟨by simp [ExpectDesiredResourcesYAMLOverride, overrideLoop, sampleConversions, sampleOverride,
        sampleTest, sampleAnnotations, sampleRemoveAnnotations, GetTestResourceName,
        AnnotationKeyResourceName, Merge, mergeLoop, copyLoop, mapSet, mapGet, mapDelete],
   (ExpectDesiredResourcesYAMLOverride_frame sampleConversions [sampleOverride] sampleTest _
      (by simp [ExpectDesiredResourcesYAMLOverride, overrideLoop, sampleConversions,
        sampleOverride, sampleTest, sampleAnnotations, sampleRemoveAnnotations,
        GetTestResourceName, AnnotationKeyResourceName, Merge, mergeLoop, copyLoop, mapSet,
        mapGet, mapDelete])).1⟩

end Testing
